import Mathlib

/-!
Shallow embedding of the odds-aggregation subsystem of
`nestjs-multi-db-backend`, together with theorems settling the frozen
claims about its specification.

Embedded source files:
* `src/openai/openai.service.ts` — deterministic fallback name
  normalization (`fallbackNormalization`, `normalizeBookmakerName`);
* `src/cache/cache.service.ts` — cache-aside `get`/`set`/`wrap`;
* `src/bookmakers/bookmakers.service.ts` — source configuration,
  sliding-window rate limiter, per-source odds fetch and fan-out
  collection;
* the extended bookmakers service variant — grouping, aggregate
  statistics (`calculateVariance`) and arbitrage ranking
  (`findBestOdds`).

Numeric prices (JS `number`) are embedded as `ℚ`; timestamps
(`Date.now()` milliseconds) as `ℕ`.  Asynchrony is flattened: every
`await`ed collaborator is an explicit oracle argument, and thrown
exceptions are explicit `Except`/`Bool` outcomes.
-/

/-! ## JS string primitives (character-level, faithful on ASCII) -/

/-- JS whitespace class `\s`, restricted to its ASCII members
(space, tab, newline, carriage return, vertical tab, form feed). -/
def jsIsSpace (c : Char) : Bool :=
  c = ' ' || c = '\t' || c = '\n' || c = '\r' || c = '\x0b' || c = '\x0c'

/-- JS word-character class `\w`, i.e. `[A-Za-z0-9_]`. -/
def jsIsWordChar (c : Char) : Bool :=
  ('a' ≤ c && c ≤ 'z') || ('A' ≤ c && c ≤ 'Z') || ('0' ≤ c && c ≤ '9') || c = '_'

/-- `String.prototype.toLowerCase`, per character (ASCII range). -/
def jsLower (l : List Char) : List Char :=
  l.map Char.toLower

/-- `String.prototype.trim`: strip leading and trailing whitespace. -/
def jsTrim (l : List Char) : List Char :=
  ((l.dropWhile jsIsSpace).reverse.dropWhile jsIsSpace).reverse

/-- `.replace(/[^\w\s]/g, ' ')` from `fallbackNormalization`:
every character that is neither a word character nor whitespace
becomes a single space. -/
def replaceSpecials (l : List Char) : List Char :=
  l.map fun c => if jsIsWordChar c || jsIsSpace c then c else ' '

/-- `.replace(/\s+/g, ' ')`: collapse every maximal run of whitespace
into one space (a lone whitespace character also becomes `' '`). -/
def collapseWs : List Char → List Char
  | [] => []
  | [c] => [if jsIsSpace c then ' ' else c]
  | c :: d :: cs =>
    if jsIsSpace c && jsIsSpace d then collapseWs (d :: cs)
    else (if jsIsSpace c then ' ' else c) :: collapseWs (d :: cs)

/-- `.split(' ')`: split on every single space, keeping empty fields
(JS semantics: `"".split(' ') = [""]`, `" ".split(' ') = ["", ""]`). -/
def splitSp : List Char → List (List Char)
  | [] => [[]]
  | c :: cs =>
    if c = ' ' then [] :: splitSp cs
    else
      match splitSp cs with
      | [] => [[c]]
      | t :: ts => (c :: t) :: ts

/-- `word.charAt(0).toUpperCase() + word.slice(1)` (empty word stays empty). -/
def capitalizeFirst : List Char → List Char
  | [] => []
  | c :: cs => c.toUpper :: cs

/-- `.join(' ')`: concatenate the fields with a single space between
consecutive fields. -/
def joinSp : List (List Char) → List Char
  | [] => []
  | [t] => t
  | t :: t' :: ts => t ++ ' ' :: joinSp (t' :: ts)

/-- `String` wrapper for `jsLower`. -/
def jsLowerStr (s : String) : String :=
  ⟨jsLower s.data⟩

/-! ## NameNormalizer (`openai.service.ts`) -/

/-- Character-list prefix test (`needle` a prefix of `hay`). -/
def startsWithCl : List Char → List Char → Bool
  | [], _ => true
  | _ :: _, [] => false
  | a :: as, b :: bs => a = b && startsWithCl as bs

/-- JS `String.prototype.includes`: substring containment. -/
def containsSub (needle : List Char) : List Char → Bool
  | [] => needle.isEmpty
  | c :: cs => startsWithCl needle (c :: cs) || containsSub needle cs

/-- `NameNormalizationResponse` of `openai.service.ts`. -/
structure NameNormalizationResponse where
  normalizedName : String
  confidence : ℚ
  suggestions : List String
  reasoning : String
deriving DecidableEq

/-- The fixed `bookmakerMappings` alias table of `fallbackNormalization`,
in JS object-literal insertion order. -/
def bookmakerMappings : List (String × String) :=
  [("bet365", "Bet365"),
   ("william hill", "William Hill"),
   ("paddy power", "Paddy Power"),
   ("betfair", "Betfair"),
   ("ladbrokes", "Ladbrokes"),
   ("coral", "Coral"),
   ("888 sport", "888 Sport"),
   ("unibet", "Unibet"),
   ("betway", "Betway"),
   ("sky bet", "Sky Bet")]

/-- The alias scan of `fallbackNormalization`: first table entry whose
key occurs as a substring of the (lower-cased) normalized string wins. -/
def findAliasValue (lowerNormalized : List Char) : Option String :=
  (bookmakerMappings.find? fun kv => containsSub kv.1.data lowerNormalized).map (·.2)

/-- The title-casing pipeline of `fallbackNormalization` before the alias
scan: trim, lower-case, replace `[^\w\s]` by spaces, collapse whitespace,
split on `' '`, capitalize each field, join with `' '`. -/
def fallbackCore (l : List Char) : List Char :=
  joinSp ((splitSp (collapseWs (replaceSpecials (jsLower (jsTrim l))))).map capitalizeFirst)

/-- `OpenAIService.fallbackNormalization` (the deterministic fallback):
title-case pipeline, then the alias table overrides the whole string on a
case-insensitive substring match; confidence is fixed at `0.6`. -/
def fallbackNormalization (originalName : String) : NameNormalizationResponse :=
  let normalized : List Char := fallbackCore originalName.data
  let finalName : String :=
    match findAliasValue (jsLower normalized) with
    | some v => v
    | none => ⟨normalized⟩
  { normalizedName := finalName
    confidence := 0.6
    suggestions := []
    reasoning := "Fallback rule-based normalization" }

/-- `OpenAIService.normalizeBookmakerName`, with the remote call as an
oracle: when the service is disabled (no API key) or the remote call
errors, the deterministic fallback is used; otherwise the parsed remote
response is returned as-is. -/
def normalizeBookmakerName (isEnabled : Bool)
    (remote : Except Unit NameNormalizationResponse)
    (originalName : String) : NameNormalizationResponse :=
  if !isEnabled then fallbackNormalization originalName
  else
    match remote with
    | .ok r => r
    | .error _ => fallbackNormalization originalName

/-- Modelled from the spec (§4.3), for comparison with the code: the
spec's four-step fallback algorithm, word for word — step 2 replaces
every character outside `[a-z0-9]` with a space and collapses whitespace
runs, and step 3 title-cases each whitespace-separated (hence non-empty)
token. -/
def specFallbackCore (l : List Char) : List Char :=
  let lowered := jsLower (jsTrim l)
  let spaced := collapseWs (lowered.map fun c =>
    if ('a' ≤ c && c ≤ 'z') || ('0' ≤ c && c ≤ '9') then c else ' ')
  let tokens := (splitSp spaced).filter (· ≠ [])
  joinSp (tokens.map capitalizeFirst)

/-- Modelled from the spec (§4.3), step 4 included: the four-step
algorithm followed by the alias-table override. -/
def specFallbackNormalization (originalName : String) : String :=
  let normalized := specFallbackCore originalName.data
  match findAliasValue (jsLower normalized) with
  | some v => v
  | none => ⟨normalized⟩

/-- The amended fallback algorithm (the spec's four steps with the two
corrections the code forces): step 2 keeps word characters `[a-z0-9_]`
(JS `\w`, so underscores survive) and replaces only the remaining
non-whitespace characters with spaces, and step 3 title-cases every
`' '`-separated field including the empty boundary fields that step 2
can introduce (so a leading or trailing space survives into the result). -/
def amendedFallbackCore (l : List Char) : List Char :=
  let lowered := jsLower (jsTrim l)
  let spaced := collapseWs (lowered.map fun c =>
    if jsIsWordChar c || jsIsSpace c then c else ' ')
  joinSp ((splitSp spaced).map capitalizeFirst)

/-! ## CacheAside (`cache.service.ts`) -/

/-- Outcome of the underlying `cacheManager.get` call as seen by
`CacheService.get`: a successful read (possibly a miss) or a thrown
error.  `CacheService.get` swallows the error and returns `null`
(`none`); on success it returns the stored value. -/
def cacheServiceGet {α : Type} (read : Except Unit (Option α)) : Option α :=
  match read with
  | .ok d => d
  | .error _ => none

/-- `CacheService.wrap` (`getOrCompute`): the compute function is an
oracle indexed by invocation number (`fn 0` is the first call, `fn 1`
the second, ...), each invocation either returning a value or throwing.
`writeOk` is whether `cacheManager.set` succeeds (`CacheService.set`
rethrows its failure as an `InternalServerErrorException`).  Returns the
value `wrap` produces (or the exception it propagates) together with the
number of times the compute function was invoked.  Mirrors the source:
a hit returns the cached value; otherwise `fn` is invoked and the result
written back; any exception in that `try` block (a throwing `fn` or a
failing write) is caught and answered by invoking `fn` once more. -/
def cacheServiceWrap {α : Type} (read : Except Unit (Option α)) (writeOk : Bool)
    (fn : Nat → Except Unit α) : Except Unit α × Nat :=
  match cacheServiceGet read with
  | some v => (.ok v, 0)
  | none =>
    match fn 0 with
    | .error _ => (fn 1, 2)
    | .ok r => if writeOk then (.ok r, 1) else (fn 1, 2)

/-! ## BookmakersService (`bookmakers.service.ts`) -/

/-- The `endpoints` record of a `BookmakerConfig`. -/
structure BookmakerEndpoints where
  sports : String
  events : String
  odds : String
deriving DecidableEq

/-- `BookmakerConfig` of `bookmakers.service.ts` (`rateLimit` is
requests per minute). -/
structure BookmakerConfig where
  name : String
  baseUrl : String
  rateLimit : Nat
  enabled : Bool
  endpoints : BookmakerEndpoints
deriving DecidableEq

/-- `loadBookmakerConfigs`: the static configuration list of
`src/bookmakers/bookmakers.service.ts`. -/
def loadBookmakerConfigs : List BookmakerConfig :=
  [{ name := "bet365", baseUrl := "https://api.bet365.com", rateLimit := 60,
     enabled := true,
     endpoints := { sports := "/sports", events := "/events", odds := "/odds" } },
   { name := "william_hill", baseUrl := "https://api.williamhill.com", rateLimit := 30,
     enabled := true,
     endpoints := { sports := "/sports", events := "/events", odds := "/odds" } },
   { name := "betfair", baseUrl := "https://api.betfair.com", rateLimit := 120,
     enabled := true,
     endpoints := { sports := "/betting/v1/listEventTypes",
                    events := "/betting/v1/listEvents",
                    odds := "/betting/v1/listMarketBook" } },
   { name := "paddy_power", baseUrl := "https://api.paddypower.com", rateLimit := 45,
     enabled := true,
     endpoints := { sports := "/sports", events := "/events", odds := "/odds" } }]

/-- JS `String.prototype.replace('_', ' ')`: replaces only the first
occurrence of the underscore. -/
def replaceFirstUnderscore : List Char → List Char
  | [] => []
  | c :: cs => if c = '_' then ' ' :: cs else c :: replaceFirstUnderscore cs

/-- `getBookmakerConfig`: case-insensitive lookup, also matching the
configured name with its first underscore replaced by a space. -/
def getBookmakerConfig (cfgs : List BookmakerConfig) (name : String) :
    Option BookmakerConfig :=
  cfgs.find? fun config =>
    (jsLowerStr config.name == jsLowerStr name) ||
      (jsLowerStr ⟨replaceFirstUnderscore config.name.data⟩ == jsLowerStr name)

/-- The `rateLimitTracker : Map<string, number[]>` of the service;
`Map.get(...) || []` is modelled by a total function defaulting to `[]`. -/
def RateTracker : Type := String → List Nat

/-- The empty tracker (fresh service instance). -/
def emptyTracker : RateTracker := fun _ => []

/-- The pruned window `recentRequests` computed by `checkRateLimit`:
the recorded timestamps of `name` that are younger than 60 000 ms
(`now - time < 60000`, with JS negative differences collapsing to `0`
under `ℕ` truncated subtraction, which keeps them just as JS does). -/
def prunedWindow (name : String) (now : Nat) (tr : RateTracker) : List Nat :=
  (tr name).filter fun t => decide (now - t < 60000)

/-- `checkRateLimit`: fail closed without a configuration; otherwise
prune the window, deny at capacity (window unchanged), else admit and
record `now`. -/
def checkRateLimit (name : String) (now : Nat) (tr : RateTracker) :
    Bool × RateTracker :=
  match getBookmakerConfig loadBookmakerConfigs name with
  | none => (false, tr)
  | some config =>
    let recent := prunedWindow name now tr
    if config.rateLimit ≤ recent.length then (false, tr)
    else (true, fun k => if k = name then recent ++ [now] else tr k)

/-- A sequence of `checkRateLimit` calls for one source name at the given
times; returns the final tracker and the list of admitted timestamps. -/
def runRateChecks (name : String) : List Nat → RateTracker → RateTracker × List Nat
  | [], tr => (tr, [])
  | t :: ts, tr =>
    let s := checkRateLimit name t tr
    let r := runRateChecks name ts s.2
    (r.1, (if s.1 then [t] else []) ++ r.2)

/-- A sequence of `checkRateLimit` calls under arbitrary caller-supplied
names; returns the final tracker and the number of successful admissions. -/
def runNamedChecks : List (String × Nat) → RateTracker → RateTracker × Nat
  | [], tr => (tr, 0)
  | (n, t) :: rest, tr =>
    let s := checkRateLimit n t tr
    let r := runNamedChecks rest s.2
    (r.1, (if s.1 then 1 else 0) + r.2)

/-- `BookmakerOdds` of `bookmakers.service.ts` (one quote). -/
structure BookmakerOdds where
  bookmaker : String
  normalizedBookmaker : String
  sport : String
  event : String
  market : String
  selection : String
  odds : ℚ
  timestamp : Nat
  confidence : ℚ
deriving DecidableEq

/-- One element of a raw event's `selections` array. -/
structure RawSelection where
  name : String
  odds : ℚ
deriving DecidableEq

/-- One element of the raw odds array returned by `fetchOddsFromAPI`. -/
structure RawEvent where
  event : String
  market : String
  selections : List RawSelection
deriving DecidableEq

/-- `processOddsData`: flatten the raw events, normalizing each selection
name (the OpenAI service being unconfigured, `normalizePlayerName` is the
deterministic fallback) and stamping the current time. -/
def processOddsData (rawOdds : List RawEvent) (normalizedBookmaker : String)
    (now : Nat) : List BookmakerOdds :=
  rawOdds.flatMap fun eventData => eventData.selections.map fun selection =>
    { bookmaker := normalizedBookmaker
      normalizedBookmaker := normalizedBookmaker
      sport := "football"
      event := eventData.event
      market := eventData.market
      selection := (fallbackNormalization selection.name).normalizedName
      odds := selection.odds
      timestamp := now
      confidence := (fallbackNormalization selection.name).confidence }

/-- The collaborator outcomes one `fetchOddsFromBookmaker` call observes:
the (error-swallowed) cache read, the current time, the upstream fetch
(which may throw), whether `cacheService.set` succeeds (it rethrows on
failure), and whether the PocketBase calls succeed. -/
structure FetchEnv where
  cached : Option (List BookmakerOdds)
  now : Nat
  api : Except Unit (List RawEvent)
  setOk : Bool
  pbOk : Bool

/-- `fetchOddsFromBookmaker`: cache hit short-circuits; no configuration
or a denied rate limit yields `[]`; then inside the `try` block the
bookmaker name is normalized (total), the API fetched, the results
processed and written to the cache, and PocketBase updated — any throw
in that block (API failure, cache-write failure, PocketBase failure) is
caught and answered with `[]`. -/
def fetchOddsFromBookmaker (bookmakerName sport : String) (env : FetchEnv)
    (tr : RateTracker) : List BookmakerOdds × RateTracker :=
  match env.cached with
  | some cachedOdds => (cachedOdds, tr)
  | none =>
    match getBookmakerConfig loadBookmakerConfigs bookmakerName with
    | none => ([], tr)
    | some _config =>
      let s := checkRateLimit bookmakerName env.now tr
      if !s.1 then ([], s.2)
      else
        let normalizationResult := normalizeBookmakerName false (.error ()) bookmakerName
        match env.api with
        | .error _ => ([], s.2)
        | .ok raw =>
          let processedOdds := processOddsData raw normalizationResult.normalizedName env.now
          if !env.setOk then ([], s.2)
          else if !env.pbOk then ([], s.2)
          else (processedOdds, s.2)

/-- The standard international mock data of `fetchOddsFromAPI`. -/
def standardMockOdds : List RawEvent :=
  [{ event := "Manchester United vs Chelsea", market := "1X2",
     selections := [{ name := "Manchester United", odds := 2.5 },
                    { name := "Draw", odds := 3.2 },
                    { name := "Chelsea", odds := 2.8 }] },
   { event := "Liverpool vs Arsenal", market := "1X2",
     selections := [{ name := "Liverpool", odds := 1.85 },
                    { name := "Draw", odds := 3.5 },
                    { name := "Arsenal", odds := 4.2 }] }]

/-- Sequential model of the fan-out in `getAllBookmakerOdds`: each
source's per-source computation runs with its own collaborator outcomes
(`env` keyed by source name) and the shared rate-limit tracker; its
result is recorded under the config's name.  `fetchOddsFromBookmaker`
catches every collaborator throw internally, so the per-source `catch`
recording `[]` is unreachable in the model. -/
def collectAll (env : String → FetchEnv) (sport : String) :
    List BookmakerConfig → RateTracker →
      List (String × List BookmakerOdds) × RateTracker
  | [], tr => ([], tr)
  | config :: rest, tr =>
    let r := fetchOddsFromBookmaker config.name sport (env config.name) tr
    let others := collectAll env sport rest r.2
    ((config.name, r.1) :: others.1, others.2)

/-- `getAllBookmakerOdds`: collect from every enabled source. -/
def getAllBookmakerOdds (env : String → FetchEnv) (sport : String)
    (tr : RateTracker) : List (String × List BookmakerOdds) × RateTracker :=
  collectAll env sport (loadBookmakerConfigs.filter (·.enabled)) tr

/-- First-match association lookup (the `results` map of
`getAllBookmakerOdds`; config names are pairwise distinct). -/
def alookup {α : Type} (k : String) : List (String × α) → Option α
  | [] => none
  | (k', v) :: rest => if k' = k then some v else alookup k rest

/-! ## AggregationEngine (extended bookmakers service) -/

/-- JS `Math.max(a, b)` on exact rationals. -/
def qmax (a b : ℚ) : ℚ := if a ≤ b then b else a

/-- JS `Math.min(a, b)` on exact rationals. -/
def qmin (a b : ℚ) : ℚ := if a ≤ b then a else b

/-- `Math.max(...values)` over a non-empty list (`0` for `[]`, a case the
service never produces: every group holds the quote that created it). -/
def listMax : List ℚ → ℚ
  | [] => 0
  | h :: t => t.foldl qmax h

/-- `Math.min(...values)` over a non-empty list (`0` for `[]`). -/
def listMin : List ℚ → ℚ
  | [] => 0
  | h :: t => t.foldl qmin h

/-- `calculateVariance`: `0` for at most one sample, else the mean of the
squared deviations from the mean (population variance). -/
def calculateVariance (values : List ℚ) : ℚ :=
  if values.length ≤ 1 then 0
  else
    let mean := values.sum / values.length
    ((values.map fun value => (value - mean) ^ 2).sum) / values.length

/-- Modelled from the spec (§3, §4.5), for comparison with the code:
population variance as the mean of squared deviations. -/
def popVariance (values : List ℚ) : ℚ :=
  ((values.map fun value => (value - values.sum / values.length) ^ 2).sum) / values.length

/-- The `stats` record computed per market group by
`calculateAggregatedStats`. -/
structure AggStats where
  min : ℚ
  max : ℚ
  avg : ℚ
  variance : ℚ
  count : Nat
deriving DecidableEq

/-- The per-group `stats` computation of `calculateAggregatedStats`
(lines 599–605): min, max, arithmetic mean, variance and sample count of
the group's odds values. -/
def statsOfGroup (odds : List BookmakerOdds) : AggStats :=
  let oddsValues := odds.map (·.odds)
  { min := listMin oddsValues
    max := listMax oddsValues
    avg := oddsValues.sum / oddsValues.length
    variance := calculateVariance oddsValues
    count := oddsValues.length }

/-- Ordered-record upsert: JS object property insertion order — update
the key in place if present, append it otherwise (starting from `d`). -/
def upsert {α : Type} (k : String) (d : α) (f : α → α) :
    List (String × α) → List (String × α)
  | [] => [(k, f d)]
  | kv :: rest =>
    if kv.1 = k then (kv.1, f kv.2) :: rest else kv :: upsert k d f rest

/-- `groupOddsByEventAndMarket`: nested records keyed by the event label
and then by the composite `` `${market}_${selection}` `` label, each group
accumulating its quotes in arrival order. -/
def groupOddsByEventAndMarket (odds : List BookmakerOdds) :
    List (String × List (String × List BookmakerOdds)) :=
  odds.foldl
    (fun groups odd =>
      upsert odd.event []
        (upsert (odd.market ++ "_" ++ odd.selection) [] (fun l => l ++ [odd]))
        groups)
    []

/-- One element of the `bestOdds` array built by `findBestOdds`. -/
structure BestOddsEntry where
  event : String
  market : String
  selection : String
  bookmaker : String
  odds : ℚ
  advantage : ℚ
deriving DecidableEq

/-- The entry `findBestOdds` pushes for one `(event, marketKey)` group:
the first quote attaining the group's maximum price, with advantage
`max − min`; an empty group (never produced by the grouping) pushes
nothing because `find` misses. -/
def bestEntryOfGroup (event : String) (odds : List BookmakerOdds) :
    Option BestOddsEntry :=
  let maxOdds := listMax (odds.map (·.odds))
  (odds.find? fun o => o.odds == maxOdds).map fun bestOdd =>
    { event := event
      market := bestOdd.market
      selection := bestOdd.selection
      bookmaker := bestOdd.bookmaker
      odds := bestOdd.odds
      advantage := maxOdds - listMin (odds.map (·.odds)) }

/-- All entries `findBestOdds` accumulates before ranking, in group
iteration order. -/
def bestOddsEntries (eventGroups : List (String × List (String × List BookmakerOdds))) :
    List BestOddsEntry :=
  eventGroups.flatMap fun p => p.2.filterMap fun q => bestEntryOfGroup p.1 q.2

/-- Insert into a list already sorted by non-increasing advantage. -/
def insertByAdvantage (e : BestOddsEntry) : List BestOddsEntry → List BestOddsEntry
  | [] => [e]
  | f :: fs =>
    if f.advantage < e.advantage then e :: f :: fs else f :: insertByAdvantage e fs

/-- `.sort((a, b) => b.advantage - a.advantage)`: sort by non-increasing
advantage (insertion sort; the claims do not constrain tie order). -/
def sortByAdvantageDesc : List BestOddsEntry → List BestOddsEntry
  | [] => []
  | e :: es => insertByAdvantage e (sortByAdvantageDesc es)

/-- `findBestOdds`: one candidate entry per group, ranked by descending
advantage, truncated to the top 10. -/
def findBestOdds (eventGroups : List (String × List (String × List BookmakerOdds))) :
    List BestOddsEntry :=
  (sortByAdvantageDesc (bestOddsEntries eventGroups)).take 10

/-! ## Helper lemmas -/

theorem checkRateLimit_offkey (n : String) (now : Nat) (tr : RateTracker)
    (k : String) (hk : k ≠ n) : (checkRateLimit n now tr).2 k = tr k := by
  unfold checkRateLimit
  cases getBookmakerConfig loadBookmakerConfigs n with
  | none => rfl
  | some cfg =>
    simp only
    split
    · rfl
    · simp [hk]

/-! ## Claim theorems -/

/-- C1: the claim that a throwing `cacheService.set` never replaces the
freshly computed odds with an empty list is violated by
`fetchOddsFromBookmaker`: on a cache miss with a successful fetch, a
failing cache write is caught by the surrounding handler, which answers
`[]` although the computed odds list is non-empty. -/
theorem C1_cacheWriteFailure_discards_fresh_odds :
    (fetchOddsFromBookmaker "bet365" "football"
        { cached := none, now := 0, api := Except.ok standardMockOdds,
          setOk := false, pbOk := true }
        emptyTracker).1 = [] ∧
      processOddsData standardMockOdds
          (normalizeBookmakerName false (Except.error ()) "bet365").normalizedName 0 ≠ [] ∧
      (cacheServiceWrap (Except.ok none) false (fun _ => Except.ok (42 : Nat))).1 =
        Except.ok 42 := by
  refine ⟨by decide, by decide, rfl⟩

/-- C2 counterexample: with the cache unavailable (read and write both
erroring), one `wrap` call invokes the compute function twice, not
exactly once: the failing write is caught and the compute function is
re-invoked. -/
theorem C2_wrap_double_invocation_counterexample :
    (cacheServiceWrap (Except.error ()) false (fun _ => Except.ok (42 : Nat))).2 = 2 ∧
      (cacheServiceWrap (Except.error ()) false (fun _ => Except.ok (42 : Nat))).2 ≠ 1 := by
  refine ⟨by decide, by decide⟩

/-- C2 amended: a cache hit never invokes the compute function; a miss or
read error with a successful first computation and healthy write invokes
it exactly once; when the write fails (or the first computation throws)
it is invoked exactly twice — the recovery path is a hidden retry — and
never more than twice. -/
theorem C2_wrap_invocation_count {α : Type} (read : Except Unit (Option α))
    (writeOk : Bool) (fn : Nat → Except Unit α) :
    (∀ v, cacheServiceGet read = some v →
        cacheServiceWrap read writeOk fn = (Except.ok v, 0)) ∧
    (cacheServiceGet read = none → ∀ r, fn 0 = Except.ok r → writeOk = true →
        cacheServiceWrap read writeOk fn = (Except.ok r, 1)) ∧
    (cacheServiceGet read = none → writeOk = false →
        (cacheServiceWrap read writeOk fn).2 = 2 ∧
        (cacheServiceWrap read writeOk fn).1 = fn 1 ∨
        (cacheServiceWrap read writeOk fn).2 = 2 ∧ (fn 0).isOk = false) ∧
    ((cacheServiceWrap read writeOk fn).2 ≤ 2) := by
  unfold cacheServiceWrap
  refine ⟨?_, ?_, ?_, ?_⟩
  · intro v hv
    rw [hv]
  · intro hn r hr hw
    rw [hn, hr, hw]
    simp
  · intro hn hw
    rw [hn, hw]
    cases hfn : fn 0 with
    | error e => exact Or.inr ⟨rfl, rfl⟩
    | ok r => left; simp
  · cases cacheServiceGet read with
    | some v => simp
    | none =>
      cases hfn : fn 0 with
      | error e => simp
      | ok r =>
        cases writeOk <;> simp

/-- C2 witness: the amended invocation-count theorem applied at a cache
whose read and write both error and a compute function that returns `7`. -/
theorem C2_wrap_invocation_count_witness :
    (cacheServiceWrap (Except.error ()) false (fun _ => Except.ok (7 : Nat))).2 = 2 ∧
      (cacheServiceWrap (Except.error ()) false (fun _ => Except.ok (7 : Nat))).1 =
        Except.ok 7 ∨
      (cacheServiceWrap (Except.error ()) false (fun _ => Except.ok (7 : Nat))).2 = 2 ∧
      (Except.ok (7 : Nat) : Except Unit Nat).isOk = false :=
  (C2_wrap_invocation_count (Except.error ()) false (fun _ => Except.ok (7 : Nat))).2.2.1
    rfl rfl

/-- C9: for a source name with no configuration entry (under the
case-insensitive, underscore-to-space matching of `getBookmakerConfig`),
the admission check denies and leaves the tracker untouched. -/
theorem C9_rateLimit_fail_closed (name : String) (now : Nat) (tr : RateTracker)
    (h : getBookmakerConfig loadBookmakerConfigs name = none) :
    checkRateLimit name now tr = (false, tr) := by
  unfold checkRateLimit
  rw [h]

/-- C9 witness: the name `"pinnacle"` has no configuration and is denied
with the tracker unchanged. -/
theorem C9_rateLimit_fail_closed_witness :
    checkRateLimit "pinnacle" 123 emptyTracker = (false, emptyTracker) :=
  C9_rateLimit_fail_closed "pinnacle" 123 emptyTracker (by decide)

/-- C10: the rate-limit window table is keyed by the caller-supplied raw
name (admissions under one name never touch another name's window),
while configuration lookup is case-insensitive — `"bet365"` and
`"Bet365"` are distinct keys resolving to the same configuration of
limit 60, and 61 admissions for that one source succeed at a single
instant (hence within one trailing 60-second window) when split across
the two spellings. -/
theorem C10_rate_windows_keyed_by_raw_name :
    (∀ (n1 n2 : String) (now : Nat) (tr : RateTracker), n1 ≠ n2 →
        (checkRateLimit n1 now tr).2 n2 = tr n2) ∧
    ("bet365" : String) ≠ "Bet365" ∧
    getBookmakerConfig loadBookmakerConfigs "Bet365" =
      getBookmakerConfig loadBookmakerConfigs "bet365" ∧
    (getBookmakerConfig loadBookmakerConfigs "bet365").map (·.rateLimit) = some 60 ∧
    (runNamedChecks (List.replicate 60 ("bet365", 0) ++ [("Bet365", 0)])
        emptyTracker).2 = 61 := by
  refine ⟨?_, by decide, by decide, by decide, by decide⟩
  intro n1 n2 now tr h
  exact checkRateLimit_offkey n1 now tr n2 (Ne.symm h)

/-- C10 witness: an admission recorded under `"bet365"` leaves the
window of the distinct key `"Bet365"` unchanged. -/
theorem C10_rate_windows_keyed_by_raw_name_witness :
    (checkRateLimit "bet365" 0 emptyTracker).2 "Bet365" = emptyTracker "Bet365" :=
  C10_rate_windows_keyed_by_raw_name.1 "bet365" "Bet365" 0 emptyTracker (by decide)

theorem splitSp_ne_nil (l : List Char) : splitSp l ≠ [] := by
  cases l with
  | nil => simp [splitSp]
  | cons c cs =>
    unfold splitSp
    split
    · simp
    · split <;> simp

theorem collapseWs_ne_nil (l : List Char) (h : l ≠ []) : collapseWs l ≠ [] := by
  induction l using collapseWs.induct with
  | case1 => exact absurd rfl h
  | case2 c => simp [collapseWs]
  | case3 c d cs hsp ih => rw [collapseWs]; simp only [hsp, if_true]; exact ih (by simp)
  | case4 c d cs hsp ih => rw [collapseWs]; simp only [hsp, if_false]; simp

theorem joinSp_capitalize_ne_nil (m : List Char) (h : m ≠ []) :
    joinSp ((splitSp m).map capitalizeFirst) ≠ [] := by
  match m with
  | [] => exact absurd rfl h
  | c :: cs =>
    by_cases hc : c = ' '
    · subst hc
      have hs : splitSp (' ' :: cs) = [] :: splitSp cs := rfl
      rw [hs]
      obtain ⟨t, ts, ht⟩ : ∃ t ts, splitSp cs = t :: ts := by
        cases hsp : splitSp cs with
        | nil => exact absurd hsp (splitSp_ne_nil cs)
        | cons t ts => exact ⟨t, ts, rfl⟩
      rw [ht]
      simp [joinSp, capitalizeFirst]
    · obtain ⟨t, ts, ht⟩ : ∃ t ts, splitSp (c :: cs) = (c :: t) :: ts := by
        unfold splitSp
        simp only [hc, if_false]
        cases hsp : splitSp cs with
        | nil => exact absurd hsp (splitSp_ne_nil cs)
        | cons t ts => exact ⟨t, ts, rfl⟩
      rw [ht]
      cases hmap : ts.map capitalizeFirst with
      | nil => simp [joinSp, capitalizeFirst, hmap]
      | cons x xs => simp [joinSp, capitalizeFirst, hmap]

theorem fallbackCore_ne_nil (l : List Char) (h : jsTrim l ≠ []) :
    fallbackCore l ≠ [] := by
  unfold fallbackCore
  apply joinSp_capitalize_ne_nil
  apply collapseWs_ne_nil
  simp [replaceSpecials, jsLower]
  exact h

theorem bookmakerMappings_values_ne_empty :
    ∀ kv ∈ bookmakerMappings, kv.2 ≠ "" := by decide

/-- C5 counterexample: the deterministic fallback does not equal the
spec's four-step algorithm on every input — on `"a_b"` the code keeps
the underscore (JS `\w`) and produces `"A_b"`, while the spec's steps
produce `"A B"`. -/
theorem C5_fallback_underscore_counterexample :
    (fallbackNormalization "a_b").normalizedName = "A_b" ∧
      specFallbackNormalization "a_b" = "A B" ∧
      (fallbackNormalization "a_b").normalizedName ≠ specFallbackNormalization "a_b" := by
  refine ⟨by decide, by decide, by decide⟩

/-- C5 amended: the fallback equals the spec's algorithm with step 2
keeping `[a-z0-9_]` (JS `\w`) and step 3 title-casing every
`' '`-separated field including empty boundary fields (boundary spaces
survive); the two scenario mappings hold as stated:
`"bet365" ↦ "Bet365"` and `"Paddy  Power!!" ↦ "Paddy Power"`. -/
theorem C5_fallback_amended_algorithm (s : String) :
    (fallbackNormalization "bet365").normalizedName = "Bet365" ∧
    (fallbackNormalization "Paddy  Power!!").normalizedName = "Paddy Power" ∧
    fallbackCore s.data = amendedFallbackCore s.data ∧
    (fallbackNormalization s).normalizedName =
      (match findAliasValue (jsLower (amendedFallbackCore s.data)) with
       | some v => v
       | none => String.mk (amendedFallbackCore s.data)) := by
  refine ⟨by decide, by decide, rfl, rfl⟩

/-- C6 counterexample: `" "` is a non-empty input string, yet the
normalizer (remote service absent) returns an empty `normalizedName`
for it — the whitespace-only input is trimmed to nothing. -/
theorem C6_whitespace_input_counterexample :
    (" " : String) ≠ "" ∧
      (normalizeBookmakerName false (Except.error ()) " ").normalizedName = "" := by
  refine ⟨by decide, by decide⟩

/-- C6 amended: with the remote service absent or erroring, for every
input string whose trim is non-empty the normalizer returns a non-empty
name; the confidence always lies in `[0, 1]` (it is `0.6`); and an
alias-table match always overrides the generic title-cased result (the
answer is then one of the table's canonical values). -/
theorem C6_normalize_total_amended (isEnabled : Bool)
    (remote : Except Unit NameNormalizationResponse) (s : String)
    (hdeg : isEnabled = false ∨ remote = Except.error ())
    (htrim : jsTrim s.data ≠ []) :
    (normalizeBookmakerName isEnabled remote s).normalizedName ≠ "" ∧
    0 ≤ (normalizeBookmakerName isEnabled remote s).confidence ∧
    (normalizeBookmakerName isEnabled remote s).confidence ≤ 1 ∧
    ((∃ kv ∈ bookmakerMappings,
        containsSub kv.1.data (jsLower (fallbackCore s.data)) = true) →
      ∃ kv ∈ bookmakerMappings,
        (normalizeBookmakerName isEnabled remote s).normalizedName = kv.2) := by
  have hred : normalizeBookmakerName isEnabled remote s = fallbackNormalization s := by
    rcases hdeg with h | h
    · rw [h]
      rfl
    · rw [h]
      cases isEnabled <;> rfl
  have hname : (fallbackNormalization s).normalizedName =
      (match findAliasValue (jsLower (fallbackCore s.data)) with
       | some v => v
       | none => String.mk (fallbackCore s.data)) := rfl
  have hconf : (fallbackNormalization s).confidence = 0.6 := rfl
  rw [hred]
  refine ⟨?_, ?_, ?_, ?_⟩
  · rw [hname]
    cases hfa : findAliasValue (jsLower (fallbackCore s.data)) with
    | some v =>
      obtain ⟨kv, hkvfind⟩ : ∃ kv,
          bookmakerMappings.find?
            (fun kv => containsSub kv.1.data (jsLower (fallbackCore s.data))) = some kv := by
        unfold findAliasValue at hfa
        cases hf : bookmakerMappings.find?
            (fun kv => containsSub kv.1.data (jsLower (fallbackCore s.data))) with
        | none => rw [hf] at hfa; exact absurd hfa (by simp)
        | some kv => exact ⟨kv, rfl⟩
      have hv : v = kv.2 := by
        unfold findAliasValue at hfa
        rw [hkvfind] at hfa
        simpa using hfa.symm
      rw [hv]
      exact bookmakerMappings_values_ne_empty kv (List.mem_of_find?_eq_some hkvfind)
    | none =>
      intro heq
      exact fallbackCore_ne_nil s.data htrim (congrArg String.data heq)
  · rw [hconf]
    norm_num
  · rw [hconf]
    norm_num
  · intro ⟨kv0, hkv0mem, hkv0⟩
    rw [hname]
    have hsome : (bookmakerMappings.find?
        (fun kv => containsSub kv.1.data (jsLower (fallbackCore s.data)))).isSome := by
      rw [List.find?_isSome]
      exact ⟨kv0, hkv0mem, hkv0⟩
    obtain ⟨kv, hkvfind⟩ := Option.isSome_iff_exists.mp hsome
    have hfa : findAliasValue (jsLower (fallbackCore s.data)) = some kv.2 := by
      unfold findAliasValue
      rw [hkvfind]
      rfl
    rw [hfa]
    exact ⟨kv, List.mem_of_find?_eq_some hkvfind, rfl⟩

/-- C6 witness: the amended totality theorem applied to the input
`"bet365"` with the remote service disabled. -/
theorem C6_normalize_total_amended_witness :
    (normalizeBookmakerName false (Except.error ()) "bet365").normalizedName ≠ "" ∧
    0 ≤ (normalizeBookmakerName false (Except.error ()) "bet365").confidence ∧
    (normalizeBookmakerName false (Except.error ()) "bet365").confidence ≤ 1 ∧
    ((∃ kv ∈ bookmakerMappings,
        containsSub kv.1.data (jsLower (fallbackCore ("bet365" : String).data)) = true) →
      ∃ kv ∈ bookmakerMappings,
        (normalizeBookmakerName false (Except.error ()) "bet365").normalizedName = kv.2) :=
  C6_normalize_total_amended false (Except.error ()) "bet365" (Or.inl rfl) (by decide)

theorem qmax_left_le (a b : ℚ) : a ≤ qmax a b := by
  unfold qmax
  split
  · assumption
  · exact le_rfl

theorem qmax_right_le (a b : ℚ) : b ≤ qmax a b := by
  unfold qmax
  split
  · exact le_rfl
  · exact le_of_not_le (by assumption)

theorem qmin_le_left (a b : ℚ) : qmin a b ≤ a := by
  unfold qmin
  split
  · exact le_rfl
  · exact le_of_not_le (by assumption)

theorem qmin_le_right (a b : ℚ) : qmin a b ≤ b := by
  unfold qmin
  split
  · assumption
  · exact le_rfl

theorem foldl_qmax_init_le (t : List ℚ) : ∀ b : ℚ, b ≤ t.foldl qmax b := by
  induction t with
  | nil => intro b; exact le_rfl
  | cons a t ih =>
    intro b
    calc b ≤ qmax b a := qmax_left_le b a
    _ ≤ t.foldl qmax (qmax b a) := ih (qmax b a)

theorem foldl_qmax_mem_le (t : List ℚ) : ∀ b : ℚ, ∀ x ∈ t, x ≤ t.foldl qmax b := by
  induction t with
  | nil => intro b x hx; exact absurd hx (List.not_mem_nil x)
  | cons a t ih =>
    intro b x hx
    rcases List.mem_cons.mp hx with rfl | hx
    · calc x ≤ qmax b x := qmax_right_le b x
      _ ≤ t.foldl qmax (qmax b x) := foldl_qmax_init_le t (qmax b x)
    · exact ih (qmax b a) x hx

theorem mem_le_listMax (vs : List ℚ) (x : ℚ) (hx : x ∈ vs) : x ≤ listMax vs := by
  cases vs with
  | nil => exact absurd hx (List.not_mem_nil x)
  | cons h t =>
    rcases List.mem_cons.mp hx with rfl | hx
    · exact foldl_qmax_init_le t x
    · exact foldl_qmax_mem_le t h x hx

theorem foldl_qmin_le_init (t : List ℚ) : ∀ b : ℚ, t.foldl qmin b ≤ b := by
  induction t with
  | nil => intro b; exact le_rfl
  | cons a t ih =>
    intro b
    calc t.foldl qmin (qmin b a) ≤ qmin b a := ih (qmin b a)
    _ ≤ b := qmin_le_left b a

theorem foldl_qmin_le_mem (t : List ℚ) : ∀ b : ℚ, ∀ x ∈ t, t.foldl qmin b ≤ x := by
  induction t with
  | nil => intro b x hx; exact absurd hx (List.not_mem_nil x)
  | cons a t ih =>
    intro b x hx
    rcases List.mem_cons.mp hx with rfl | hx
    · calc t.foldl qmin (qmin b x) ≤ qmin b x := foldl_qmin_le_init t (qmin b x)
      _ ≤ x := qmin_le_right b x
    · exact ih (qmin b a) x hx

theorem listMin_le_mem (vs : List ℚ) (x : ℚ) (hx : x ∈ vs) : listMin vs ≤ x := by
  cases vs with
  | nil => exact absurd hx (List.not_mem_nil x)
  | cons h t =>
    rcases List.mem_cons.mp hx with rfl | hx
    · exact foldl_qmin_le_init t x
    · exact foldl_qmin_le_mem t h x hx

theorem list_sum_nonneg_eq_zero_iff (l : List ℚ) (h : ∀ x ∈ l, 0 ≤ x) :
    l.sum = 0 ↔ ∀ x ∈ l, x = 0 := by
  induction l with
  | nil => simp
  | cons a t ih =>
    have hts : 0 ≤ t.sum := List.sum_nonneg fun x hx => h x (List.mem_cons_of_mem a hx)
    have ha : 0 ≤ a := h a (List.mem_cons_self a t)
    rw [List.sum_cons]
    constructor
    · intro h0
      have ha0 : a = 0 := le_antisymm (by linarith) ha
      have ht0 : t.sum = 0 := by linarith
      intro x hx
      rcases List.mem_cons.mp hx with rfl | hx
      · exact ha0
      · exact (ih fun x hx => h x (List.mem_cons_of_mem a hx)).mp ht0 x hx
    · intro hall
      have ht0 : t.sum = 0 :=
        (ih fun x hx => h x (List.mem_cons_of_mem a hx)).mpr
          fun x hx => hall x (List.mem_cons_of_mem a hx)
      rw [hall a (List.mem_cons_self a t), ht0, add_zero]

theorem list_sum_const_of_eq (l : List ℚ) (c : ℚ) (h : ∀ x ∈ l, x = c) :
    l.sum = l.length * c := by
  induction l with
  | nil => simp
  | cons a t ih =>
    rw [List.sum_cons, h a (List.mem_cons_self a t),
      ih fun x hx => h x (List.mem_cons_of_mem a hx), List.length_cons]
    push_cast
    ring

theorem calculateVariance_nonneg (vs : List ℚ) : 0 ≤ calculateVariance vs := by
  unfold calculateVariance
  split
  · exact le_rfl
  · exact div_nonneg
      (List.sum_nonneg fun x hx => by
        obtain ⟨v, _, rfl⟩ := List.mem_map.mp hx
        exact sq_nonneg _)
      (by positivity)

theorem calculateVariance_eq_popVariance (vs : List ℚ) :
    calculateVariance vs = popVariance vs := by
  unfold calculateVariance popVariance
  split
  · rename_i hlen
    match vs, hlen with
    | [], _ => simp
    | [a], _ =>
      simp only [List.sum_cons, List.sum_nil, List.length_cons, List.length_nil,
        List.map_cons, List.map_nil]
      norm_num
  · rfl

theorem calculateVariance_eq_zero_iff (vs : List ℚ) :
    calculateVariance vs = 0 ↔ vs.length ≤ 1 ∨ ∀ v ∈ vs, ∀ v' ∈ vs, v = v' := by
  unfold calculateVariance
  split
  · rename_i hlen
    exact ⟨fun _ => Or.inl hlen, fun _ => rfl⟩
  · rename_i hlen
    have hn : (vs.length : ℚ) ≠ 0 := by
      have : vs.length ≠ 0 := by omega
      exact_mod_cast this
    constructor
    · intro h0
      right
      have hS : ((vs.map fun v => (v - vs.sum / vs.length) ^ 2).sum) = 0 := by
        rcases div_eq_zero_iff.mp h0 with h | h
        · exact h
        · exact absurd h hn
      have hall := (list_sum_nonneg_eq_zero_iff _ fun x hx => by
        obtain ⟨v, _, rfl⟩ := List.mem_map.mp hx
        exact sq_nonneg _).mp hS
      intro v hv v' hv'
      have h1 : (v - vs.sum / vs.length) ^ 2 = 0 :=
        hall _ (List.mem_map_of_mem _ hv)
      have h2 : (v' - vs.sum / vs.length) ^ 2 = 0 :=
        hall _ (List.mem_map_of_mem _ hv')
      have e1 : v = vs.sum / vs.length := by
        have := pow_eq_zero_iff (n := 2) (by norm_num) |>.mp h1
        linarith [sub_eq_zero.mp this]
      have e2 : v' = vs.sum / vs.length := by
        have := pow_eq_zero_iff (n := 2) (by norm_num) |>.mp h2
        linarith [sub_eq_zero.mp this]
      rw [e1, e2]
    · intro hall
      rcases hall with hlen' | hall
      · exact absurd hlen' hlen
      · match vs, hlen with
        | v0 :: t, _ =>
          have hc : ∀ v ∈ v0 :: t, v = v0 :=
            fun v hv => hall v hv v0 (List.mem_cons_self v0 t)
          have hsum : (v0 :: t).sum = ((v0 :: t).length : ℚ) * v0 :=
            list_sum_const_of_eq _ v0 hc
          have hmean : (v0 :: t).sum / ((v0 :: t).length : ℚ) = v0 := by
            rw [hsum]
            field_simp
          have hzero : ∀ x ∈ (v0 :: t).map fun v =>
              (v - (v0 :: t).sum / ((v0 :: t).length : ℚ)) ^ 2, x = 0 := by
            intro x hx
            obtain ⟨v, hv, rfl⟩ := List.mem_map.mp hx
            rw [hmean, hc v hv]
            ring
          simp only [List.sum_eq_zero hzero, zero_div]

theorem avg_le_listMax (vs : List ℚ) (h : vs ≠ []) :
    vs.sum / vs.length ≤ listMax vs := by
  have hlen : 0 < (vs.length : ℚ) := by
    have : 0 < vs.length := List.length_pos.mpr h
    exact_mod_cast this
  rw [div_le_iff₀ hlen]
  have := List.sum_le_card_nsmul vs (listMax vs) fun x hx => mem_le_listMax vs x hx
  rw [nsmul_eq_mul] at this
  linarith

theorem listMin_le_avg (vs : List ℚ) (h : vs ≠ []) :
    listMin vs ≤ vs.sum / vs.length := by
  have hlen : 0 < (vs.length : ℚ) := by
    have : 0 < vs.length := List.length_pos.mpr h
    exact_mod_cast this
  rw [le_div_iff₀ hlen]
  have := List.card_nsmul_le_sum vs (listMin vs) fun x hx => listMin_le_mem vs x hx
  rw [nsmul_eq_mul] at this
  linarith

theorem statsOfGroup_variance (g : List BookmakerOdds) :
    (statsOfGroup g).variance = calculateVariance (g.map (·.odds)) := rfl

theorem statsOfGroup_min (g : List BookmakerOdds) :
    (statsOfGroup g).min = listMin (g.map (·.odds)) := rfl

theorem statsOfGroup_max (g : List BookmakerOdds) :
    (statsOfGroup g).max = listMax (g.map (·.odds)) := rfl

theorem statsOfGroup_avg (g : List BookmakerOdds) :
    (statsOfGroup g).avg = (g.map (·.odds)).sum / ((g.map (·.odds)).length : ℚ) := rfl

theorem statsOfGroup_count (g : List BookmakerOdds) :
    (statsOfGroup g).count = (g.map (·.odds)).length := rfl

/-- C7: for every non-empty group of quotes sharing one
(event, market, selection) key, the computed `stats` satisfy: the
variance is non-negative; it is zero exactly when the group has at most
one member or all members share one price; it is the population variance
(mean of squared deviations); and `min ≤ mean ≤ max` whenever the count
is at least 1. -/
theorem C7_group_stats_invariants (g : List BookmakerOdds) (e m sel : String)
    (hne : g ≠ [])
    (hkey : ∀ q ∈ g, q.event = e ∧ q.market = m ∧ q.selection = sel) :
    0 ≤ (statsOfGroup g).variance ∧
    ((statsOfGroup g).variance = 0 ↔
      g.length ≤ 1 ∨ ∀ q ∈ g, ∀ q' ∈ g, q.odds = q'.odds) ∧
    (statsOfGroup g).variance = popVariance (g.map (·.odds)) ∧
    (1 ≤ (statsOfGroup g).count →
      (statsOfGroup g).min ≤ (statsOfGroup g).avg ∧
        (statsOfGroup g).avg ≤ (statsOfGroup g).max) := by
  have hvs : g.map (·.odds) ≠ [] := by
    intro hmap
    exact hne (List.map_eq_nil_iff.mp hmap)
  rw [statsOfGroup_variance, statsOfGroup_min, statsOfGroup_max, statsOfGroup_avg,
    statsOfGroup_count]
  refine ⟨?_, ?_, ?_, ?_⟩
  · have h := calculateVariance_nonneg (g.map (·.odds))
    exact h
  · rw [calculateVariance_eq_zero_iff]
    constructor
    · intro hor
      rcases hor with hlen | hall
      · exact Or.inl (by simpa using hlen)
      · exact Or.inr fun q hq q' hq' =>
          hall q.odds (List.mem_map_of_mem _ hq) q'.odds (List.mem_map_of_mem _ hq')
    · intro hor
      rcases hor with hlen | hall
      · exact Or.inl (by simpa using hlen)
      · refine Or.inr fun v hv v' hv' => ?_
        obtain ⟨q, hq, rfl⟩ := List.mem_map.mp hv
        obtain ⟨q', hq', rfl⟩ := List.mem_map.mp hv'
        exact hall q hq q' hq'
  · have h := calculateVariance_eq_popVariance (g.map (·.odds))
    exact h
  · intro _
    have h1 := listMin_le_avg (g.map (·.odds)) hvs
    have h2 := avg_le_listMax (g.map (·.odds)) hvs
    exact ⟨h1, h2⟩

/-- C7 witness: the invariants theorem applied to a concrete two-quote
group sharing the key (`"A vs B"`, `"1X2"`, `"A"`). -/
theorem C7_group_stats_invariants_witness :
    0 ≤ (statsOfGroup
      [{ bookmaker := "Bet365", normalizedBookmaker := "Bet365", sport := "football",
         event := "A vs B", market := "1X2", selection := "A", odds := 2,
         timestamp := 0, confidence := 1 },
       { bookmaker := "Betfair", normalizedBookmaker := "Betfair", sport := "football",
         event := "A vs B", market := "1X2", selection := "A", odds := 3,
         timestamp := 0, confidence := 1 }]).variance :=
  (C7_group_stats_invariants
    [{ bookmaker := "Bet365", normalizedBookmaker := "Bet365", sport := "football",
       event := "A vs B", market := "1X2", selection := "A", odds := 2,
       timestamp := 0, confidence := 1 },
     { bookmaker := "Betfair", normalizedBookmaker := "Betfair", sport := "football",
       event := "A vs B", market := "1X2", selection := "A", odds := 3,
       timestamp := 0, confidence := 1 }]
    "A vs B" "1X2" "A" (by simp)
    (by
      intro q hq
      rcases List.mem_cons.mp hq with rfl | hq
      · exact ⟨rfl, rfl, rfl⟩
      · rcases List.mem_cons.mp hq with rfl | hq
        · exact ⟨rfl, rfl, rfl⟩
        · exact absurd hq (List.not_mem_nil q))).1

theorem mem_insertByAdvantage (e x : BestOddsEntry) (l : List BestOddsEntry)
    (hx : x ∈ insertByAdvantage e l) : x = e ∨ x ∈ l := by
  induction l with
  | nil => simpa [insertByAdvantage] using hx
  | cons f fs ih =>
    unfold insertByAdvantage at hx
    split at hx
    · rcases List.mem_cons.mp hx with rfl | hx
      · exact Or.inl rfl
      · exact Or.inr hx
    · rcases List.mem_cons.mp hx with rfl | hx
      · exact Or.inr (List.mem_cons_self x fs)
      · rcases ih hx with h | h
        · exact Or.inl h
        · exact Or.inr (List.mem_cons_of_mem f h)

theorem pairwise_insertByAdvantage (e : BestOddsEntry) (l : List BestOddsEntry)
    (hl : l.Pairwise fun a b => b.advantage ≤ a.advantage) :
    (insertByAdvantage e l).Pairwise fun a b => b.advantage ≤ a.advantage := by
  induction l with
  | nil => simp [insertByAdvantage]
  | cons f fs ih =>
    unfold insertByAdvantage
    rcases List.pairwise_cons.mp hl with ⟨hf, hfs⟩
    split
    · rename_i hlt
      refine List.pairwise_cons.mpr ⟨?_, hl⟩
      intro x hx
      rcases List.mem_cons.mp hx with rfl | hx
      · exact le_of_lt hlt
      · exact le_trans (hf x hx) (le_of_lt hlt)
    · rename_i hnlt
      refine List.pairwise_cons.mpr ⟨?_, ih hfs⟩
      intro x hx
      rcases mem_insertByAdvantage e x fs hx with rfl | hx
      · exact le_of_not_lt hnlt
      · exact hf x hx

theorem pairwise_sortByAdvantageDesc (l : List BestOddsEntry) :
    (sortByAdvantageDesc l).Pairwise fun a b => b.advantage ≤ a.advantage := by
  induction l with
  | nil => simp [sortByAdvantageDesc]
  | cons e es ih => exact pairwise_insertByAdvantage e (sortByAdvantageDesc es) ih

theorem mem_sortByAdvantageDesc (l : List BestOddsEntry) (x : BestOddsEntry)
    (hx : x ∈ sortByAdvantageDesc l) : x ∈ l := by
  induction l with
  | nil => simpa [sortByAdvantageDesc] using hx
  | cons e es ih =>
    rcases mem_insertByAdvantage e x (sortByAdvantageDesc es) hx with rfl | h
    · exact List.mem_cons_self x es
    · exact List.mem_cons_of_mem e (ih h)

theorem foldl_qmax_mem (t : List ℚ) : ∀ b : ℚ, t.foldl qmax b ∈ b :: t := by
  induction t with
  | nil => intro b; exact List.mem_cons_self b []
  | cons a t ih =>
    intro b
    have h := ih (qmax b a)
    rcases List.mem_cons.mp h with he | ht
    · rw [List.foldl_cons, he]
      unfold qmax
      split
      · exact List.mem_cons_of_mem b (List.mem_cons_self a t)
      · exact List.mem_cons_self b (a :: t)
    · exact List.mem_cons_of_mem b (List.mem_cons_of_mem a ht)

theorem listMax_mem (vs : List ℚ) (h : vs ≠ []) : listMax vs ∈ vs := by
  cases vs with
  | nil => exact absurd rfl h
  | cons a t => exact foldl_qmax_mem t a

theorem bestEntryOfGroup_isSome (ev : String) (odds : List BookmakerOdds)
    (h : odds ≠ []) : (bestEntryOfGroup ev odds).isSome := by
  have hmax : listMax (odds.map (·.odds)) ∈ odds.map (·.odds) :=
    listMax_mem _ (by simpa using h)
  obtain ⟨q, hq, hqo⟩ := List.mem_map.mp hmax
  have hfind : (odds.find? fun o => o.odds == listMax (odds.map (·.odds))).isSome :=
    List.find?_isSome.mpr ⟨q, hq, beq_iff_eq.mpr hqo⟩
  obtain ⟨b, hb⟩ := Option.isSome_iff_exists.mp hfind
  simp only [bestEntryOfGroup]
  rw [hb]
  rfl

theorem bestEntryOfGroup_spec (ev : String) (odds : List BookmakerOdds)
    (e : BestOddsEntry) (h : bestEntryOfGroup ev odds = some e) :
    odds ≠ [] ∧ e.event = ev ∧
      e.advantage = listMax (odds.map (·.odds)) - listMin (odds.map (·.odds)) ∧
      e.odds = listMax (odds.map (·.odds)) := by
  simp only [bestEntryOfGroup] at h
  cases hfind : odds.find? fun o => o.odds == listMax (odds.map (·.odds)) with
  | none => rw [hfind] at h; simp at h
  | some b =>
    rw [hfind] at h
    simp only [Option.map_some', Option.some.injEq] at h
    have hb : b ∈ odds := List.mem_of_find?_eq_some hfind
    have hbo : b.odds = listMax (odds.map (·.odds)) := by
      have hp := List.find?_some hfind
      simpa using hp
    subst h
    refine ⟨?_, rfl, rfl, hbo⟩
    intro hnil
    rw [hnil] at hb
    exact absurd hb (List.not_mem_nil b)

theorem upsert_forall {α : Type} (P : α → Prop) (k : String) (d : α) (f : α → α)
    (l : List (String × α)) (hfd : P (f d)) (hf : ∀ v, P v → P (f v))
    (hl : ∀ kv ∈ l, P kv.2) : ∀ kv ∈ upsert k d f l, P kv.2 := by
  induction l with
  | nil =>
    intro kv hkv
    rcases List.mem_cons.mp hkv with rfl | hkv
    · exact hfd
    · exact absurd hkv (List.not_mem_nil kv)
  | cons hd tl ih =>
    have hltl : ∀ kv ∈ tl, P kv.2 := fun x hx => hl x (List.mem_cons_of_mem hd hx)
    intro kv hkv
    unfold upsert at hkv
    split at hkv
    · rcases List.mem_cons.mp hkv with rfl | hkv
      · exact hf hd.2 (hl hd (List.mem_cons_self hd tl))
      · exact hltl kv hkv
    · rcases List.mem_cons.mp hkv with rfl | hkv
      · exact hl kv (List.mem_cons_self kv tl)
      · exact ih hltl kv hkv


theorem groupOdds_cells_ne_nil (quotes : List BookmakerOdds) :
    ∀ p ∈ groupOddsByEventAndMarket quotes, ∀ c ∈ p.2, c.2 ≠ [] := by
  unfold groupOddsByEventAndMarket
  suffices h : ∀ (gs : List (String × List (String × List BookmakerOdds))),
      (∀ p ∈ gs, ∀ c ∈ p.2, c.2 ≠ []) →
      ∀ p ∈ quotes.foldl
        (fun groups odd =>
          upsert odd.event []
            (upsert (odd.market ++ "_" ++ odd.selection) [] (fun l => l ++ [odd]))
            groups)
        gs, ∀ c ∈ p.2, c.2 ≠ [] by
    exact h [] (by intro p hp; exact absurd hp (List.not_mem_nil p))
  induction quotes with
  | nil => intro gs hgs; simpa using hgs
  | cons q qs ih =>
    intro gs hgs
    rw [List.foldl_cons]
    apply ih
    refine upsert_forall (fun mkts => ∀ c ∈ mkts, c.2 ≠ []) q.event []
      (upsert (q.market ++ "_" ++ q.selection) [] (fun l => l ++ [q])) gs ?_ ?_ hgs
    · intro c hc
      rcases List.mem_cons.mp hc with rfl | hc
      · simp
      · exact absurd hc (List.not_mem_nil c)
    · intro v hv
      refine upsert_forall (fun cell => cell ≠ []) (q.market ++ "_" ++ q.selection) []
        (fun l => l ++ [q]) v (by simp) (fun w _ => by simp) hv

theorem filterMap_length_of_isSome {α β : Type} (g : α → Option β) (l : List α)
    (h : ∀ x ∈ l, (g x).isSome) : (l.filterMap g).length = l.length := by
  induction l with
  | nil => rfl
  | cons a t ih =>
    obtain ⟨b, hb⟩ := Option.isSome_iff_exists.mp (h a (List.mem_cons_self a t))
    rw [List.filterMap_cons, hb, List.length_cons, List.length_cons,
      ih fun x hx => h x (List.mem_cons_of_mem a hx)]

theorem bestOddsEntries_length (gs : List (String × List (String × List BookmakerOdds)))
    (hne : ∀ p ∈ gs, ∀ c ∈ p.2, c.2 ≠ []) :
    (bestOddsEntries gs).length = (gs.flatMap (·.2)).length := by
  induction gs with
  | nil => rfl
  | cons p ps ih =>
    unfold bestOddsEntries
    rw [List.flatMap_cons, List.flatMap_cons, List.length_append, List.length_append]
    have h1 : (p.2.filterMap fun q => bestEntryOfGroup p.1 q.2).length = p.2.length :=
      filterMap_length_of_isSome _ _ fun c hc =>
        bestEntryOfGroup_isSome p.1 c.2 (hne p (List.mem_cons_self p ps) c hc)
    rw [h1]
    have h2 := ih fun p hp => hne p (List.mem_cons_of_mem _ hp)
    unfold bestOddsEntries at h2
    rw [h2]

/-- A single quote used as the counterexample input for C3. -/
def loneQuote : BookmakerOdds :=
  { bookmaker := "Bet365", normalizedBookmaker := "Bet365", sport := "football",
    event := "E1", market := "1X2", selection := "S1", odds := 2, timestamp := 0,
    confidence := 1 }

/-- C3 counterexample: on an input with a single quote, every group has
exactly one source, yet `findBestOdds` still produces one entry (with
advantage 0) — the claim that entries exist only for groups with at
least two sources is false. -/
theorem C3_single_source_counterexample :
    (findBestOdds (groupOddsByEventAndMarket [loneQuote])).length = 1 ∧
      ∀ p ∈ groupOddsByEventAndMarket [loneQuote], ∀ c ∈ p.2, c.2.length = 1 := by
  refine ⟨by decide, by decide⟩

/-- C3 amended: `findBestOdds` ranks one candidate entry per non-empty
`(event, market_selection)` group — including single-source groups,
whose advantage is 0 — with each entry's advantage equal to its group's
maximum minus minimum price and its price the group maximum; the result
is sorted by non-increasing advantage and truncated to at most 10. -/
theorem C3_findBestOdds_amended (quotes : List BookmakerOdds) :
    (findBestOdds (groupOddsByEventAndMarket quotes)).length ≤ 10 ∧
    (findBestOdds (groupOddsByEventAndMarket quotes)).Pairwise
      (fun a b => b.advantage ≤ a.advantage) ∧
    (bestOddsEntries (groupOddsByEventAndMarket quotes)).length =
      ((groupOddsByEventAndMarket quotes).flatMap (·.2)).length ∧
    ∀ e ∈ findBestOdds (groupOddsByEventAndMarket quotes),
      ∃ ev mkts, (ev, mkts) ∈ groupOddsByEventAndMarket quotes ∧
        ∃ mk odds, (mk, odds) ∈ mkts ∧ odds ≠ [] ∧ e.event = ev ∧
          e.advantage = listMax (odds.map (·.odds)) - listMin (odds.map (·.odds)) ∧
          e.odds = listMax (odds.map (·.odds)) := by
  refine ⟨?_, ?_, ?_, ?_⟩
  · exact List.length_take_le 10 _
  · exact (pairwise_sortByAdvantageDesc _).sublist (List.take_sublist 10 _)
  · exact bestOddsEntries_length _ (groupOdds_cells_ne_nil quotes)
  · intro e he
    have he1 : e ∈ sortByAdvantageDesc (bestOddsEntries (groupOddsByEventAndMarket quotes)) :=
      List.take_subset 10 _ he
    have he2 : e ∈ bestOddsEntries (groupOddsByEventAndMarket quotes) :=
      mem_sortByAdvantageDesc _ e he1
    unfold bestOddsEntries at he2
    obtain ⟨p, hp, he3⟩ := List.mem_flatMap.mp he2
    obtain ⟨c, hc, he4⟩ := List.mem_filterMap.mp he3
    obtain ⟨hne, hev, hadv, hodds⟩ := bestEntryOfGroup_spec p.1 c.2 e he4
    exact ⟨p.1, p.2, hp, c.1, c.2, hc, hne, hev, hadv, hodds⟩

/-- C3 witness: the amended theorem applied at the single-quote input. -/
theorem C3_findBestOdds_amended_witness :
    (findBestOdds (groupOddsByEventAndMarket [loneQuote])).length ≤ 10 :=
  (C3_findBestOdds_amended [loneQuote]).1

/-- The per-name log of admitted request times: each admission saw
strictly fewer than `L` previously admitted times within 60 000 ms
before it. -/
inductive AdmissibleLog (L : Nat) : List Nat → Prop
  | nil : AdmissibleLog L []
  | snoc {B : List Nat} {a : Nat} : AdmissibleLog L B →
      ((B.filter fun x => decide (a - x < 60000)).length < L) →
      AdmissibleLog L (B ++ [a])

/-- The tracker entry reconstructed from an admission log: empty until
the first admission, afterwards the log filtered by the last admission
time (the last moment the entry was rewritten). -/
def windowView (acc : List Nat) : List Nat :=
  match acc.getLast? with
  | none => []
  | some m => acc.filter fun x => decide (m - x < 60000)

theorem length_filter_mono {α : Type} (l : List α) (p q : α → Bool)
    (h : ∀ x ∈ l, p x = true → q x = true) :
    (l.filter p).length ≤ (l.filter q).length := by
  induction l with
  | nil => simp
  | cons a t ih =>
    have ih' := ih fun x hx => h x (List.mem_cons_of_mem a hx)
    by_cases hp : p a = true
    · have hq := h a (List.mem_cons_self a t) hp
      rw [List.filter_cons_of_pos hp, List.filter_cons_of_pos hq]
      simpa using ih'
    · rw [List.filter_cons_of_neg (by simpa using hp)]
      by_cases hq : q a = true
      · rw [List.filter_cons_of_pos hq]
        exact le_trans ih' (by simp)
      · rw [List.filter_cons_of_neg (by simpa using hq)]
        exact ih'

theorem admissibleLog_window_bound (L : Nat) (A : List Nat)
    (hA : AdmissibleLog L A) :
    A.Sorted (· ≤ ·) → ∀ T : Nat,
      (A.filter fun x => decide (x ≤ T) && decide (T - x < 60000)).length ≤ L := by
  induction hA with
  | nil => intro _ T; simp
  | snoc hB hlt ih =>
    rename_i B a
    intro hs T
    have hsB : B.Sorted (· ≤ ·) :=
      List.Pairwise.sublist (List.sublist_append_left B [a]) hs
    rw [List.filter_append, List.length_append]
    by_cases ha : (decide (a ≤ T) && decide (T - a < 60000)) = true
    · have h1 : (B.filter fun x => decide (x ≤ T) && decide (T - x < 60000)).length ≤
          (B.filter fun x => decide (a - x < 60000)).length := by
        apply length_filter_mono
        intro x hx hpx
        simp only [Bool.and_eq_true, decide_eq_true_eq] at hpx ha
        exact decide_eq_true (by omega)
      have h2 : (([a] : List Nat).filter
          fun x => decide (x ≤ T) && decide (T - x < 60000)).length ≤ 1 := by
        rw [List.filter_cons]
        split <;> simp
      omega
    · have h2 : (([a] : List Nat).filter
          fun x => decide (x ≤ T) && decide (T - x < 60000)).length = 0 := by
        rw [List.filter_cons]
        rw [if_neg (by simpa using ha)]
        rfl
      rw [h2]
      have := ih hsB T
      omega

theorem checkRateLimit_denied (name : String) (cfg : BookmakerConfig)
    (hc : getBookmakerConfig loadBookmakerConfigs name = some cfg)
    (now : Nat) (tr : RateTracker)
    (h : cfg.rateLimit ≤ (prunedWindow name now tr).length) :
    checkRateLimit name now tr = (false, tr) := by
  unfold checkRateLimit
  rw [hc]
  simp [h]

theorem checkRateLimit_admitted (name : String) (cfg : BookmakerConfig)
    (hc : getBookmakerConfig loadBookmakerConfigs name = some cfg)
    (now : Nat) (tr : RateTracker)
    (h : (prunedWindow name now tr).length < cfg.rateLimit) :
    checkRateLimit name now tr =
      (true, fun k => if k = name then prunedWindow name now tr ++ [now] else tr k) := by
  unfold checkRateLimit
  rw [hc]
  simp [Nat.not_le.mpr h]

theorem runRateChecks_cons (name : String) (t : Nat) (ts : List Nat)
    (tr : RateTracker) :
    runRateChecks name (t :: ts) tr =
      ((runRateChecks name ts (checkRateLimit name t tr).2).1,
        (if (checkRateLimit name t tr).1 then [t] else []) ++
          (runRateChecks name ts (checkRateLimit name t tr).2).2) := rfl

theorem runRateChecks_sublist (name : String) :
    ∀ (times : List Nat) (tr : RateTracker),
      (runRateChecks name times tr).2.Sublist times := by
  intro times
  induction times with
  | nil => intro tr; exact List.Sublist.refl []
  | cons t ts ih =>
    intro tr
    rw [runRateChecks_cons]
    by_cases hb : (checkRateLimit name t tr).1 = true
    · rw [hb, if_pos rfl]
      exact List.Sublist.cons₂ t (ih _)
    · rw [if_neg (by simpa using hb), List.nil_append]
      exact List.Sublist.cons t (ih _)

theorem windowView_filter (acc : List Nat) (t : Nat) (hle : ∀ x ∈ acc, x ≤ t) :
    (windowView acc).filter (fun x => decide (t - x < 60000)) =
      acc.filter fun x => decide (t - x < 60000) := by
  unfold windowView
  cases hl : acc.getLast? with
  | none =>
    have hnil : acc = [] := by simpa using hl
    rw [hnil]
  | some m =>
    have hm : m ∈ acc := List.mem_of_mem_getLast? hl
    have hmt : m ≤ t := hle m hm
    rw [List.filter_filter]
    apply List.filter_congr
    intro x hx
    by_cases h1 : t - x < 60000
    · have h2 : m - x < 60000 := by omega
      simp [h1, h2]
    · simp [h1]

theorem runRateChecks_admissible (name : String) (cfg : BookmakerConfig)
    (hc : getBookmakerConfig loadBookmakerConfigs name = some cfg) :
    ∀ (times acc : List Nat) (tr : RateTracker),
      (acc ++ times).Sorted (· ≤ ·) →
      tr name = windowView acc →
      AdmissibleLog cfg.rateLimit acc →
      AdmissibleLog cfg.rateLimit (acc ++ (runRateChecks name times tr).2) := by
  intro times
  induction times with
  | nil =>
    intro acc tr _ _ hAdm
    simpa [runRateChecks] using hAdm
  | cons t ts ih =>
    intro acc tr hsort htr hAdm
    have hle : ∀ x ∈ acc, x ≤ t := by
      have hpa := (List.pairwise_append.mp hsort).2.2
      intro x hx
      exact hpa x hx t (List.mem_cons_self t ts)
    have hpruned : prunedWindow name t tr = acc.filter fun x => decide (t - x < 60000) := by
      unfold prunedWindow
      rw [htr]
      exact windowView_filter acc t hle
    rw [runRateChecks_cons]
    by_cases hcap : cfg.rateLimit ≤ (prunedWindow name t tr).length
    · rw [checkRateLimit_denied name cfg hc t tr hcap]
      rw [if_neg (by simp), List.nil_append]
      refine ih acc tr ?_ htr hAdm
      exact List.Pairwise.sublist
        (List.Sublist.append_left (List.sublist_cons_self t ts) acc) hsort
    · push_neg at hcap
      rw [checkRateLimit_admitted name cfg hc t tr hcap]
      dsimp only
      rw [if_pos rfl]
      have hsort2 : ((acc ++ [t]) ++ ts).Sorted (· ≤ ·) := by
        rw [List.append_assoc]
        exact hsort
      have htr2 : (fun k => if k = name then prunedWindow name t tr ++ [t] else tr k) name =
          windowView (acc ++ [t]) := by
        show (if name = name then prunedWindow name t tr ++ [t] else tr name) =
          windowView (acc ++ [t])
        rw [if_pos rfl]
        unfold windowView
        rw [List.getLast?_concat]
        dsimp only
        rw [List.filter_append, hpruned]
        have hft : (([t] : List Nat).filter fun x => decide (t - x < 60000)) = [t] := by
          rw [List.filter_cons, if_pos (by simp)]
          rfl
        rw [hft]
      have hAdm2 : AdmissibleLog cfg.rateLimit (acc ++ [t]) := by
        refine AdmissibleLog.snoc hAdm ?_
        rw [← hpruned]
        exact hcap
      have hres := ih (acc ++ [t])
        (fun k => if k = name then prunedWindow name t tr ++ [t] else tr k)
        hsort2 htr2 hAdm2
      rw [← List.append_assoc]
      exact hres

theorem runRateChecks_take (name : String) (cfg : BookmakerConfig)
    (hc : getBookmakerConfig loadBookmakerConfigs name = some cfg) :
    ∀ (times acc : List Nat) (tr : RateTracker),
      tr name = acc →
      (∀ x ∈ times, ∀ y ∈ acc, x - y < 60000) →
      (∀ x ∈ times, ∀ y ∈ times, x - y < 60000) →
      (runRateChecks name times tr).2 = times.take (cfg.rateLimit - acc.length) := by
  intro times
  induction times with
  | nil =>
    intro acc tr _ _ _
    simp [runRateChecks]
  | cons t ts ih =>
    intro acc tr htr hacc hts
    have hpr : prunedWindow name t tr = acc := by
      unfold prunedWindow
      rw [htr]
      apply List.filter_eq_self.mpr
      intro x hx
      exact decide_eq_true (hacc t (List.mem_cons_self t ts) x hx)
    rw [runRateChecks_cons]
    by_cases hcap : cfg.rateLimit ≤ (prunedWindow name t tr).length
    · rw [checkRateLimit_denied name cfg hc t tr hcap]
      rw [if_neg (by simp), List.nil_append]
      have h0 : cfg.rateLimit - acc.length = 0 := by
        rw [hpr] at hcap
        omega
      rw [h0, ih acc tr htr (fun x hx => hacc x (List.mem_cons_of_mem t hx))
        (fun x hx y hy => hts x (List.mem_cons_of_mem t hx) y (List.mem_cons_of_mem t hy))]
      rw [hpr] at hcap
      have h0' : cfg.rateLimit - acc.length = 0 := by omega
      rw [h0']
      rfl
    · push_neg at hcap
      rw [checkRateLimit_admitted name cfg hc t tr hcap]
      dsimp only
      rw [if_pos rfl]
      have htr2 : (fun k => if k = name then prunedWindow name t tr ++ [t] else tr k) name =
          acc ++ [t] := by
        show (if name = name then prunedWindow name t tr ++ [t] else tr name) = acc ++ [t]
        rw [if_pos rfl, hpr]
      have hacc2 : ∀ x ∈ ts, ∀ y ∈ acc ++ [t], x - y < 60000 := by
        intro x hx y hy
        rcases List.mem_append.mp hy with hy | hy
        · exact hacc x (List.mem_cons_of_mem t hx) y hy
        · have : y = t := by simpa using hy
          rw [this]
          exact hts x (List.mem_cons_of_mem t hx) t (List.mem_cons_self t ts)
      have hts2 : ∀ x ∈ ts, ∀ y ∈ ts, x - y < 60000 :=
        fun x hx y hy => hts x (List.mem_cons_of_mem t hx) y (List.mem_cons_of_mem t hy)
      rw [ih (acc ++ [t]) _ htr2 hacc2 hts2]
      rw [hpr] at hcap
      have hsucc : cfg.rateLimit - acc.length = (cfg.rateLimit - (acc ++ [t]).length) + 1 := by
        rw [List.length_append]
        simp only [List.length_cons, List.length_nil]
        omega
      rw [hsucc]
      rfl

/-- C4: for every source name with a configuration of limit `L`, the
admission check prunes exactly the timestamps aged 60 000 ms or more
(a recorded timestamp survives iff `now − t < 60000`), admits iff the
pruned window is strictly shorter than `L`, appends `now` on admission
(after which the window never exceeds `L`); consequently, from a fresh
tracker, any non-decreasing call sequence admits at most `L` requests
into any trailing 60-second window, and when all attempts fall within
one 60-second span exactly the first `L` are admitted — the `(L+1)`-th
attempt is denied. -/
theorem C4_rateLimiter_sliding_window (name : String) (cfg : BookmakerConfig)
    (hc : getBookmakerConfig loadBookmakerConfigs name = some cfg) :
    (∀ (now : Nat) (tr : RateTracker), ∀ t ∈ tr name,
        (t ∈ prunedWindow name now tr ↔ now - t < 60000)) ∧
    (∀ (now : Nat) (tr : RateTracker),
        ((checkRateLimit name now tr).1 = true ↔
          (prunedWindow name now tr).length < cfg.rateLimit)) ∧
    (∀ (now : Nat) (tr : RateTracker), (checkRateLimit name now tr).1 = true →
        (checkRateLimit name now tr).2 name = prunedWindow name now tr ++ [now] ∧
          ((checkRateLimit name now tr).2 name).length ≤ cfg.rateLimit) ∧
    (∀ times : List Nat, times.Sorted (· ≤ ·) → ∀ T : Nat,
        (((runRateChecks name times emptyTracker).2).filter
            (fun x => decide (x ≤ T) && decide (T - x < 60000))).length ≤
          cfg.rateLimit) ∧
    (∀ times : List Nat, (∀ x ∈ times, ∀ y ∈ times, x - y < 60000) →
        (runRateChecks name times emptyTracker).2 = times.take cfg.rateLimit) := by
  refine ⟨?_, ?_, ?_, ?_, ?_⟩
  · intro now tr t ht
    unfold prunedWindow
    simp [List.mem_filter, ht]
  · intro now tr
    by_cases hcap : cfg.rateLimit ≤ (prunedWindow name now tr).length
    · rw [checkRateLimit_denied name cfg hc now tr hcap]
      simp
      omega
    · push_neg at hcap
      rw [checkRateLimit_admitted name cfg hc now tr hcap]
      simp
      omega
  · intro now tr hadm
    by_cases hcap : cfg.rateLimit ≤ (prunedWindow name now tr).length
    · rw [checkRateLimit_denied name cfg hc now tr hcap] at hadm
      exact absurd hadm (by simp)
    · push_neg at hcap
      rw [checkRateLimit_admitted name cfg hc now tr hcap]
      constructor
      · show (if name = name then prunedWindow name now tr ++ [now] else tr name) = _
        rw [if_pos rfl]
      · show (if name = name then prunedWindow name now tr ++ [now] else tr name).length ≤ _
        rw [if_pos rfl, List.length_append]
        simp only [List.length_cons, List.length_nil]
        omega
  · intro times hsorted T
    have htr0 : emptyTracker name = windowView [] := rfl
    have hlog := runRateChecks_admissible name cfg hc times [] emptyTracker
      (by simpa using hsorted) htr0 AdmissibleLog.nil
    rw [List.nil_append] at hlog
    have hsorted2 : (runRateChecks name times emptyTracker).2.Sorted (· ≤ ·) :=
      List.Pairwise.sublist (runRateChecks_sublist name times emptyTracker) hsorted
    exact admissibleLog_window_bound cfg.rateLimit _ hlog hsorted2 T
  · intro times hwin
    have h := runRateChecks_take name cfg hc times [] emptyTracker rfl
      (by intro x _ y hy; exact absurd hy (List.not_mem_nil y)) hwin
    simpa using h

/-- C4 witness: for `"bet365"` (limit 60), of 61 attempts at one instant
from a fresh tracker exactly the first 60 are admitted. -/
theorem C4_rateLimiter_sliding_window_witness :
    (runRateChecks "bet365" (List.replicate 61 0) emptyTracker).2 =
      (List.replicate 61 0).take 60 :=
  (C4_rateLimiter_sliding_window "bet365"
    { name := "bet365", baseUrl := "https://api.bet365.com", rateLimit := 60,
      enabled := true,
      endpoints := { sports := "/sports", events := "/events", odds := "/odds" } }
    (by decide)).2.2.2.2 (List.replicate 61 0) (by decide)

theorem checkRateLimit_fst_congr (n : String) (now : Nat) (tr tr' : RateTracker)
    (h : tr n = tr' n) :
    (checkRateLimit n now tr).1 = (checkRateLimit n now tr').1 := by
  unfold checkRateLimit prunedWindow
  cases getBookmakerConfig loadBookmakerConfigs n with
  | none => rfl
  | some cfg =>
    dsimp only
    rw [h]
    split <;> rfl

theorem fetchOdds_offkey (n sport : String) (env : FetchEnv) (tr : RateTracker)
    (k : String) (hk : k ≠ n) :
    (fetchOddsFromBookmaker n sport env tr).2 k = tr k := by
  have hck := checkRateLimit_offkey n env.now tr k hk
  unfold fetchOddsFromBookmaker
  cases env.cached with
  | some v => rfl
  | none =>
    cases getBookmakerConfig loadBookmakerConfigs n with
    | none => rfl
    | some cfg =>
      dsimp only
      split
      · exact hck
      · cases env.api with
        | error e => exact hck
        | ok raw =>
          dsimp only
          split
          · exact hck
          · split
            · exact hck
            · exact hck

theorem fetchOdds_congr (n sport : String) (env : FetchEnv) (tr tr' : RateTracker)
    (h : tr n = tr' n) :
    (fetchOddsFromBookmaker n sport env tr).1 =
      (fetchOddsFromBookmaker n sport env tr').1 := by
  unfold fetchOddsFromBookmaker
  cases env.cached with
  | some v => rfl
  | none =>
    cases getBookmakerConfig loadBookmakerConfigs n with
    | none => rfl
    | some cfg =>
      dsimp only
      rw [checkRateLimit_fst_congr n env.now tr tr' h]
      split
      · rfl
      · cases env.api with
        | error e => rfl
        | ok raw =>
          dsimp only
          split
          · rfl
          · split <;> rfl

theorem fetchOdds_api_error (n sport : String) (env : FetchEnv) (tr : RateTracker)
    (hcache : env.cached = none) (happi : env.api = Except.error ()) :
    (fetchOddsFromBookmaker n sport env tr).1 = [] := by
  unfold fetchOddsFromBookmaker
  rw [hcache]
  cases getBookmakerConfig loadBookmakerConfigs n with
  | none => rfl
  | some cfg =>
    dsimp only
    split
    · rfl
    · rw [happi]

theorem collectAll_cons (env : String → FetchEnv) (sport : String)
    (c : BookmakerConfig) (cs : List BookmakerConfig) (tr : RateTracker) :
    collectAll env sport (c :: cs) tr =
      ((c.name, (fetchOddsFromBookmaker c.name sport (env c.name) tr).1) ::
          (collectAll env sport cs
            (fetchOddsFromBookmaker c.name sport (env c.name) tr).2).1,
        (collectAll env sport cs
          (fetchOddsFromBookmaker c.name sport (env c.name) tr).2).2) := rfl

theorem collectAll_spec (env : String → FetchEnv) (sport : String) :
    ∀ (cs : List BookmakerConfig) (tr : RateTracker),
      (cs.map (·.name)).Nodup →
      ((collectAll env sport cs tr).1.map Prod.fst = cs.map (·.name) ∧
        ∀ c ∈ cs, alookup c.name (collectAll env sport cs tr).1 =
          some (fetchOddsFromBookmaker c.name sport (env c.name) tr).1) := by
  intro cs
  induction cs with
  | nil => exact fun tr _ => ⟨rfl, fun c hc => absurd hc (List.not_mem_nil c)⟩
  | cons c cs ih =>
    intro tr hnodup
    have hnodup' : (cs.map (·.name)).Nodup := (List.nodup_cons.mp hnodup).2
    have hnotmem : c.name ∉ cs.map (·.name) := (List.nodup_cons.mp hnodup).1
    rw [collectAll_cons]
    have hih := ih (fetchOddsFromBookmaker c.name sport (env c.name) tr).2 hnodup'
    constructor
    · rw [List.map_cons, List.map_cons, hih.1]
    · intro c' hc'
      rcases List.mem_cons.mp hc' with rfl | hc'
      · unfold alookup
        rw [if_pos rfl]
      · have hne : c.name ≠ c'.name := by
          intro heq
          exact hnotmem (heq ▸ List.mem_map_of_mem (·.name) hc')
        unfold alookup
        rw [if_neg hne]
        rw [hih.2 c' hc']
        have harg : (fetchOddsFromBookmaker c.name sport (env c.name) tr).2 c'.name =
            tr c'.name :=
          fetchOdds_offkey c.name sport (env c.name) tr c'.name (Ne.symm hne)
        rw [fetchOdds_congr c'.name sport (env c'.name) _ tr harg]

/-- C8: for every assignment of per-source collaborator outcomes, the
collection visits every enabled source and records an entry for each
under its configured name; each source's recorded result equals what its
per-source fetch would produce in isolation from the initial tracker
(sources only touch their own rate-limit window); and a source whose
fetch throws (with a cache miss) is recorded as the empty list without
disturbing the other entries. -/
theorem C8_collect_partial_failure_isolation (env : String → FetchEnv)
    (sport : String) (tr : RateTracker) :
    ((getAllBookmakerOdds env sport tr).1.map Prod.fst =
        (loadBookmakerConfigs.filter (·.enabled)).map (·.name)) ∧
    (∀ c ∈ loadBookmakerConfigs.filter (·.enabled),
        alookup c.name (getAllBookmakerOdds env sport tr).1 =
          some (fetchOddsFromBookmaker c.name sport (env c.name) tr).1) ∧
    (∀ c ∈ loadBookmakerConfigs.filter (·.enabled),
        (env c.name).cached = none → (env c.name).api = Except.error () →
          alookup c.name (getAllBookmakerOdds env sport tr).1 = some []) := by
  unfold getAllBookmakerOdds
  have hspec := collectAll_spec env sport (loadBookmakerConfigs.filter (·.enabled)) tr
    (by decide)
  refine ⟨hspec.1, hspec.2, ?_⟩
  intro c hc hcache happi
  rw [hspec.2 c hc, fetchOdds_api_error c.name sport (env c.name) tr hcache happi]

/-- C8 witness: with every source's fetch failing on a cache miss, the
`"bet365"` entry of the collection is the empty list. -/
theorem C8_collect_partial_failure_isolation_witness :
    alookup "bet365" (getAllBookmakerOdds
      (fun _ => { cached := none, now := 0, api := Except.error (),
                  setOk := true, pbOk := true })
      "football" emptyTracker).1 = some [] :=
  (C8_collect_partial_failure_isolation
    (fun _ => { cached := none, now := 0, api := Except.error (),
                setOk := true, pbOk := true })
    "football" emptyTracker).2.2
    { name := "bet365", baseUrl := "https://api.bet365.com", rateLimit := 60,
      enabled := true,
      endpoints := { sports := "/sports", events := "/events", odds := "/odds" } }
    (by decide) rfl rfl
